import Mathlib

/-
  Verification of the pitch-detection and timeline-management core of
  hummingMelodyTranscriber (a Next.js app: real-time / recorded humming
  pitch analysis).

  Shallow embedding notes:
  * JS numbers are modelled as real numbers where transcendental functions
    appear (Math.log2, Math.sqrt, Math.pow) and as rationals where only
    field arithmetic and comparisons appear.
  * The pitchfinder YIN detector lives in node_modules, outside this
    repository; it is passed around as an abstract function parameter.
  * React state updates of the form setX(prev => f prev) are modelled as
    the pure transition function f on the state value.
-/

open Classical

/-- A pitch event as stored in the pitchData array
    (interface PitchData in RecordingMode / PianoRoll components). -/
structure PitchData where
  time : ℝ
  frequency : ℝ
  note : String
  midi : ℤ

/-- Note names, pitch class 0 = C (src/app/utils/pitchDetection.ts, frequencyToNote). -/
def noteNames : List String :=
  ["C", "C#", "D", "D#", "E", "F"] ++ ["F#", "G", "G#", "A", "A#", "B"]

/-- The constant C0 = A4 * 2 ^ (-4.75) from frequencyToNote. -/
noncomputable def C0 : ℝ := 440 * (2 : ℝ) ^ (-4.75 : ℝ)

/-- Embeds frequencyToNote (src/app/utils/pitchDetection.ts lines 76-90).
    The JS guard (!frequency || frequency < 20) over real numbers is
    f = 0 or f < 20.  On the branch guarded by C0 < f the integer h is
    nonnegative (proved below), so the JS remainder operator agrees with
    Int.emod and Math.floor(h/12) is the real floor used here. -/
noncomputable def frequencyToNote (f : ℝ) : String :=
  if f = 0 ∨ f < 20 then ""
  else if C0 < f then
    let h : ℤ := round (12 * Real.logb 2 (f / C0))
    let octave : ℤ := ⌊(h : ℝ) / 12⌋
    let n : ℤ := h % 12
    noteNames.getD n.toNat "" ++ toString octave
  else ""

/-- Embeds frequencyToMidi (src/app/utils/pitchDetection.ts lines 93-96):
    returns 0 below the 20 Hz floor, otherwise round(12*log2(f/440)+69). -/
noncomputable def frequencyToMidi (f : ℝ) : ℤ :=
  if f = 0 ∨ f < 20 then 0
  else round (12 * Real.logb 2 (f / 440) + 69)

/-- A JavaScript value as returned by the underlying pitch detector:
    number, null, undefined, or NaN. -/
inductive JSValue where
  | null : JSValue
  | undef : JSValue
  | nan : JSValue
  | num : ℝ → JSValue

/-- JS truthiness for detector results: null, undefined, NaN and 0 are falsy. -/
def JSValue.truthy : JSValue → Prop
  | .num x => x ≠ 0
  | _ => False

/-- The JS expression (v || null). -/
noncomputable def jsOrNull (v : JSValue) : JSValue :=
  if v.truthy then v else JSValue.null

/-- Embeds getPitchFromBuffer (src/app/utils/pitchDetection.ts lines 99-101):
    return detectPitch(buffer) || null.  The detector is the external
    pitchfinder YIN function, abstracted as a parameter. -/
noncomputable def getPitchFromBuffer {α : Type} (detectPitch : α → JSValue) (buffer : α) :
    JSValue := jsOrNull (detectPitch buffer)

/-- One step of the shared acceptance logic of collectPitchData
    (RecordingMode lines 70-83), handleFileUpload (lines 178-191) and
    the real-time loop: given the wrapped detector output (none = null)
    and the event timestamp, produce the event appended to pitchData,
    if any.  The JS condition is (frequency && frequency > 80 && frequency < 2000). -/
noncomputable def pitchEventStep (freq : Option ℝ) (t : ℝ) : Option PitchData :=
  match freq with
  | none => none
  | some f =>
    if f ≠ 0 ∧ 80 < f ∧ f < 2000 then
      some ⟨t, f, frequencyToNote f, frequencyToMidi f⟩
    else none

/-- Embeds the timeline append setPitchData(prev => [...prev, event])
    of collectPitchData / handleFileUpload. -/
def appendPitch (prev : List PitchData) (e : PitchData) : List PitchData :=
  prev ++ [e]

/-- The frame offsets visited by the analysis loop of handleFileUpload
    (RecordingMode lines 176-192):
    for (let i = 0; i < channelData.length - chunkSize; i += hopSize)
    with chunkSize = 4096 and hopSize = 1024; L is channelData.length. -/
def strideOffsets (L : ℕ) (i : ℕ) : List ℕ :=
  if h : i + 4096 < L then i :: strideOffsets L (i + 1024) else []
termination_by L - i
decreasing_by omega

/-- The frame channelData.slice(i, i + 4096) taken at offset i. -/
def frameAt (samples : List ℝ) (i : ℕ) : List ℝ :=
  (samples.drop i).take 4096

/-- Embeds the whole file-analysis loop of handleFileUpload: stride the
    decoded buffer, detect pitch on each frame, and accept events with
    time i / sampleRate. -/
noncomputable def analyzeFile (detect : List ℝ → Option ℝ) (samples : List ℝ)
    (sampleRate : ℝ) : List PitchData :=
  (strideOffsets samples.length 0).filterMap fun i =>
    pitchEventStep (detect (frameAt samples i)) ((i : ℝ) / sampleRate)

/-- Math.max over a nonempty JS array (spread call in the PianoRoll code). -/
def maxOf : List ℤ → ℤ
  | [] => 0
  | x :: xs => xs.foldl max x

/-- Math.min over a nonempty JS array. -/
def minOf : List ℤ → ℤ
  | [] => 0
  | x :: xs => xs.foldl min x

/-- midiRange = Math.max(dataMaxMidi - dataMinMidi, 12)
    (PianoRoll inside RealTimePitchDetector.tsx, line 232). -/
def midiRangeOf (l : List ℤ) : ℤ := max (maxOf l - minOf l) 12

/-- The list of midi values given a piano-key row by the drawing loop
    for (let i = 0; i < midiRange; i++) with midi = dataMaxMidi - i
    (RealTimePitchDetector.tsx lines 239-241): the auto-fitted vertical range. -/
def pianoKeys (l : List ℤ) : List ℤ :=
  (List.range (midiRangeOf l).toNat).map fun (i : ℕ) => maxOf l - (i : ℤ)

/-- Embeds handleStartTimeChange (RealTimePitchDetector.tsx lines 398-404):
    the time range state transition when the start slider moves. -/
def handleStartTimeChange (r : ℚ × ℚ) (newStart : ℚ) : ℚ × ℚ :=
  (min newStart (r.2 - 1/10), r.2)

/-- Embeds handleEndTimeChange (RealTimePitchDetector.tsx lines 406-412):
    the time range state transition when the end slider moves. -/
def handleEndTimeChange (r : ℚ × ℚ) (newEnd : ℚ) : ℚ × ℚ :=
  (r.1, max newEnd (r.1 + 1/10))

/-- The Euclidean pixel distance of handleMouseMove
    (RealTimePitchDetector.tsx lines 343-346): the event is projected to
    dataX = (time - timeRange.start) * timeScale and
    dataY = (dataMaxMidi - midi) * keyHeight + keyHeight / 2. -/
noncomputable def mouseDist (x y timeStart timeScale dataMaxMidi keyHeight : ℝ)
    (p : PitchData) : ℝ :=
  Real.sqrt ((x - (p.time - timeStart) * timeScale) ^ 2 +
    (y - ((dataMaxMidi - (p.midi : ℝ)) * keyHeight + keyHeight / 2)) ^ 2)

/-- pitchData.filter(d => d.time >= timeRange.start && d.time <= timeRange.end)
    (RealTimePitchDetector.tsx line 329). -/
noncomputable def filterByTimeRange (timeStart timeEnd : ℝ) (pitchData : List PitchData) :
    List PitchData :=
  pitchData.filter fun p => decide (timeStart ≤ p.time ∧ p.time ≤ timeEnd)

/-- The nearest-point fold of handleMouseMove (lines 340-352): the
    accumulator is none for (nearestData = null, minDistance = Infinity)
    and some (e, m) once a candidate within 20 px has been found; an event
    replaces the current best only if its distance is strictly smaller
    and strictly below 20. -/
noncomputable def nearestAcc {α : Type} (d : α → ℝ) :
    Option (α × ℝ) → List α → Option (α × ℝ)
  | acc, [] => acc
  | acc, p :: ps =>
    if (acc.elim True fun be => d p < be.2) ∧ d p < 20 then
      nearestAcc d (some (p, d p)) ps
    else
      nearestAcc d acc ps

/-- The nearest event returned by the fold (null when none qualifies). -/
noncomputable def nearestData {α : Type} (d : α → ℝ) (pts : List α) : Option α :=
  (nearestAcc d none pts).map Prod.fst

/-- Full nearest lookup of handleMouseMove: filter to the zoomed time
    range, then run the nearest-point fold under the pixel projection. -/
noncomputable def findNearest (x y timeStart timeEnd timeScale dataMaxMidi keyHeight : ℝ)
    (pitchData : List PitchData) : Option PitchData :=
  nearestData (mouseDist x y timeStart timeScale dataMaxMidi keyHeight)
    (filterByTimeRange timeStart timeEnd pitchData)

/-- Invariant of the nearest-point fold after scanning a visited prefix:
    either no candidate was within 20 px, or the best (e, m) satisfies
    m = d e < 20, e occurs in the prefix, all events before e are strictly
    farther, and all events after are at least as far. -/
def NInv {α : Type} (d : α → ℝ) (visited : List α) : Option (α × ℝ) → Prop
  | none => ∀ p ∈ visited, 20 ≤ d p
  | some (e, m) => m = d e ∧ d e < 20 ∧
      ∃ l1 l2, visited = l1 ++ e :: l2 ∧ (∀ p ∈ l1, d e < d p) ∧ (∀ p ∈ l2, d e ≤ d p)

/-- A concrete pitch event used for closed instances of the theorems. -/
noncomputable def ev (t f : ℝ) : PitchData :=
  ⟨t, f, frequencyToNote f, frequencyToMidi f⟩

/- ===================== Theorems ===================== -/

/-- C1 counterexample: appending events at times 0.0, 0.5 and 0.2 leaves a
    timeline of length 3 whose times are exactly [0, 0.5, 0.2], although
    0.2 < 0.5; the claimed rejection (length staying 2) does not happen. -/
theorem c1_append_counterexample :
    (appendPitch (appendPitch (appendPitch [] (ev 0 440)) (ev 0.5 440)) (ev 0.2 440)).length
      = 3 ∧
    (appendPitch (appendPitch (appendPitch [] (ev 0 440)) (ev 0.5 440)) (ev 0.2 440)).map
        PitchData.time = [0, 0.5, 0.2] ∧
    (0.2 : ℝ) < 0.5 := by
  refine ⟨rfl, ?_, by norm_num⟩
  simp [appendPitch, ev]

/-- C1 amended: the append is unconditional.  Every append extends the
    timeline by exactly the new event at the end, leaving the previous
    events unchanged, regardless of the time ordering; out-of-order events
    are neither rejected nor reordered. -/
theorem c1_append_always_accepts (prev : List PitchData) (e : PitchData) :
    appendPitch prev e = prev ++ [e] ∧
    (appendPitch prev e).length = prev.length + 1 ∧
    (appendPitch prev e).take prev.length = prev ∧
    (appendPitch prev e).getLast? = some e := by
  refine ⟨rfl, by simp [appendPitch], ?_, ?_⟩
  · simp [appendPitch, List.take_left]
  · simp [appendPitch]

/-- C8: both time-range slider transitions re-establish
    end at least start + 0.1; the start is clamped to at most end - 0.1 and
    the end to at least start + 0.1, so no transition yields an empty or
    inverted range; and from the full range of a 60-second timeline,
    selecting start 5 then end 5.05 yields exactly the range (5, 5.1). -/
theorem c8_time_range_clamped (r : ℚ × ℚ) (v : ℚ) :
    (handleStartTimeChange r v).1 + 1/10 ≤ (handleStartTimeChange r v).2 ∧
    (handleStartTimeChange r v).1 ≤ r.2 - 1/10 ∧
    (handleStartTimeChange r v).1 ≤ v ∧
    (handleStartTimeChange r v).2 = r.2 ∧
    (handleEndTimeChange r v).1 + 1/10 ≤ (handleEndTimeChange r v).2 ∧
    r.1 + 1/10 ≤ (handleEndTimeChange r v).2 ∧
    v ≤ (handleEndTimeChange r v).2 ∧
    (handleEndTimeChange r v).1 = r.1 ∧
    handleEndTimeChange (handleStartTimeChange (0, 60) 5) (505/100) = (5, 51/10) := by
  refine ⟨?_, ?_, ?_, rfl, ?_, ?_, ?_, rfl, ?_⟩
  · simp only [handleStartTimeChange]
    have := min_le_right v (r.2 - 1/10)
    linarith
  · exact min_le_right v (r.2 - 1/10)
  · exact min_le_left v (r.2 - 1/10)
  · simp only [handleEndTimeChange]
    exact le_max_right v (r.1 + 1/10)
  · exact le_max_right v (r.1 + 1/10)
  · exact le_max_left v (r.1 + 1/10)
  · simp only [handleStartTimeChange, handleEndTimeChange]
    norm_num

/-- C4 counterexample: at the concrete frequency 10 Hz (below the 20 Hz
    floor) the note label is empty as claimed, but frequencyToMidi yields
    exactly midi 0, refuting that the mapping never yields midi 0. -/
theorem c4_midi_zero_counterexample :
    (10 : ℝ) < 20 ∧ frequencyToNote 10 = "" ∧ frequencyToMidi 10 = 0 := by
  refine ⟨by norm_num, ?_, ?_⟩
  · rw [frequencyToNote, if_pos (Or.inr (by norm_num))]
  · rw [frequencyToMidi, if_pos (Or.inr (by norm_num))]

/-- C4 amended: for every frequency that is nonpositive or below the 20 Hz
    audible floor, frequencyToNote returns the empty label and
    frequencyToMidi returns 0 as its guard sentinel (no note is computed
    from such frequencies, but the midi function does yield the value 0). -/
theorem c4_low_frequency_no_note (f : ℝ) (h : f ≤ 0 ∨ f < 20) :
    frequencyToNote f = "" ∧ frequencyToMidi f = 0 := by
  have hg : f = 0 ∨ f < 20 := by
    rcases h with h | h
    · rcases eq_or_lt_of_le h with h' | h'
      · exact Or.inl h'
      · exact Or.inr (by linarith)
    · exact Or.inr h
  constructor
  · rw [frequencyToNote, if_pos hg]
  · rw [frequencyToMidi, if_pos hg]

/-- C4 witness: the amended theorem applied at the concrete frequency 10. -/
theorem c4_low_frequency_no_note_witness :
    ((10 : ℝ) ≤ 0 ∨ (10 : ℝ) < 20) ∧
    (frequencyToNote 10 = "" ∧ frequencyToMidi 10 = 0) :=
  ⟨Or.inr (by norm_num), c4_low_frequency_no_note 10 (Or.inr (by norm_num))⟩

/-- C2: an analysed frame produces a pitch event exactly when the detector
    result is a voiced (non-null) frequency f with 80 < f < 2000; in
    particular an unvoiced frame, or a frequency outside the 80-2000 Hz
    band, produces no event. -/
theorem c2_event_only_in_band (freq : Option ℝ) (t : ℝ) :
    (pitchEventStep freq t).isSome ↔ ∃ f, freq = some f ∧ 80 < f ∧ f < 2000 := by
  cases freq with
  | none => simp [pitchEventStep]
  | some f =>
    simp only [pitchEventStep]
    constructor
    · intro h
      split_ifs at h with hc
      · exact ⟨f, rfl, hc.2.1, hc.2.2⟩
      · simp at h
    · rintro ⟨g, hg, h80, h2000⟩
      injection hg with hg
      subst hg
      rw [if_pos ⟨ne_of_gt (by linarith : (0:ℝ) < f), h80, h2000⟩]
      rfl

/-- C2 witness: a voiced 440 Hz frame produces an event. -/
theorem c2_event_only_in_band_witness : (pitchEventStep (some 440) 0).isSome :=
  (c2_event_only_in_band (some 440) 0).mpr ⟨440, rfl, by norm_num, by norm_num⟩

/-- Unfolds the analysis loop bound once: membership of the strided
    offsets, proved with an explicit fuel bound on the remaining length. -/
theorem mem_strideOffsets (fuel : ℕ) : ∀ (L i j : ℕ), L ≤ i + fuel →
    (j ∈ strideOffsets L i ↔ ∃ k, j = i + 1024 * k ∧ j + 4096 < L) := by
  induction fuel with
  | zero =>
    intro L i j hfuel
    rw [strideOffsets.eq_def, dif_neg (by omega)]
    simp only [List.not_mem_nil, false_iff, not_exists, not_and]
    intro k hk
    omega
  | succ n ih =>
    intro L i j hfuel
    rw [strideOffsets.eq_def]
    by_cases hc : i + 4096 < L
    · rw [dif_pos hc]
      simp only [List.mem_cons]
      rw [ih L (i + 1024) j (by omega)]
      constructor
      · rintro (rfl | ⟨k, rfl, hk⟩)
        · exact ⟨0, by ring, by omega⟩
        · exact ⟨k + 1, by ring, hk⟩
      · rintro ⟨k, rfl, hk⟩
        cases k with
        | zero => left; omega
        | succ k2 => right; exact ⟨k2, by ring, hk⟩
    · rw [dif_neg hc]
      simp only [List.not_mem_nil, false_iff, not_exists, not_and]
      intro k hk
      omega

/-- An accepted event carries exactly the timestamp it was produced with. -/
theorem pitchEventStep_time (freq : Option ℝ) (t : ℝ) (e : PitchData)
    (h : pitchEventStep freq t = some e) : e.time = t := by
  cases freq with
  | none => simp [pitchEventStep] at h
  | some f =>
    simp only [pitchEventStep] at h
    split_ifs at h with hc
    injection h with h
    rw [← h]

/-- C3 counterexample: on a decoded buffer of exactly L = 4096 samples the
    claim admits the frame k = 0 (0 * 1024 + 4096 is at most 4096), but the
    analysis loop processes no frame at all: its bound is strict, so a
    trailing frame with exactly 4096 samples remaining is dropped. -/
theorem c3_exact_frame_dropped :
    0 * 1024 + 4096 ≤ 4096 ∧
    strideOffsets 4096 0 = [] ∧
    analyzeFile (fun _ => some 440) (List.replicate 4096 0) 44100 = [] := by
  have h : strideOffsets 4096 0 = [] := by
    rw [strideOffsets.eq_def, dif_neg (by omega)]
  refine ⟨by norm_num, h, ?_⟩
  unfold analyzeFile
  rw [List.length_replicate, h]
  rfl

/-- C3 amended: file analysis processes exactly the frames at offsets k*1024
    with k*1024 + 4096 strictly less than the buffer length (a trailing
    frame with exactly 4096 samples remaining is also dropped); every
    processed frame has exactly 4096 samples, and every produced event for
    the frame at offset i has time i / sampleRate. -/
theorem c3_file_framing (detect : List ℝ → Option ℝ) (samples : List ℝ) (rate : ℝ) :
    (∀ j, j ∈ strideOffsets samples.length 0 ↔ 1024 ∣ j ∧ j + 4096 < samples.length) ∧
    (∀ j ∈ strideOffsets samples.length 0, (frameAt samples j).length = 4096) ∧
    (∀ e ∈ analyzeFile detect samples rate,
      ∃ j, j ∈ strideOffsets samples.length 0 ∧ e.time = (j : ℝ) / rate) := by
  have hmem : ∀ j, j ∈ strideOffsets samples.length 0 ↔
      1024 ∣ j ∧ j + 4096 < samples.length := by
    intro j
    rw [mem_strideOffsets samples.length samples.length 0 j (by omega)]
    constructor
    · rintro ⟨k, rfl, hk⟩
      exact ⟨⟨k, by ring⟩, hk⟩
    · rintro ⟨⟨k, rfl⟩, hk⟩
      exact ⟨k, by ring, hk⟩
  refine ⟨hmem, ?_, ?_⟩
  · intro j hj
    have hlt : j + 4096 < samples.length := ((hmem j).mp hj).2
    simp only [frameAt, List.length_take, List.length_drop]
    omega
  · intro e he
    unfold analyzeFile at he
    rcases List.mem_filterMap.mp he with ⟨j, hj, hstep⟩
    exact ⟨j, hj, pitchEventStep_time _ _ _ hstep⟩

/-- C3 witness: on a buffer of 4097 samples the frame at offset 0 is
    processed and has exactly 4096 samples. -/
theorem c3_file_framing_witness :
    0 ∈ strideOffsets (List.replicate 4097 (0:ℝ)).length 0 ∧
    (frameAt (List.replicate 4097 (0:ℝ)) 0).length = 4096 := by
  have hmem : (0:ℕ) ∈ strideOffsets (List.replicate 4097 (0:ℝ)).length 0 :=
    ((c3_file_framing (fun _ => none) (List.replicate 4097 0) 1).1 0).mpr
      ⟨dvd_zero 1024, by rw [List.length_replicate]; omega⟩
  exact ⟨hmem, (c3_file_framing (fun _ => none) (List.replicate 4097 0) 1).2.1 0 hmem⟩

/-- The key numeric fact 22 < 2 ^ 4.75 behind the 20 Hz floor analysis. -/
theorem twentytwo_lt_two_rpow : (22:ℝ) < (2:ℝ) ^ (4.75:ℝ) := by
  have h0 : (0:ℝ) < (2:ℝ) ^ (4.75:ℝ) := Real.rpow_pos_of_pos (by norm_num) _
  have h4 : ((2:ℝ) ^ (4.75:ℝ)) ^ (4:ℕ) = (2:ℝ) ^ (19:ℕ) := by
    rw [← Real.rpow_natCast ((2:ℝ) ^ (4.75:ℝ)) 4,
      ← Real.rpow_mul (by norm_num : (0:ℝ) ≤ 2), ← Real.rpow_natCast 2 19]
    norm_num
  refine lt_of_pow_lt_pow_left₀ 4 h0.le ?_
  rw [h4]
  norm_num

/-- C0 is positive. -/
theorem C0_pos : 0 < C0 := by
  unfold C0
  positivity

/-- C0 is approximately 16.35 Hz, in particular below the 20 Hz floor. -/
theorem C0_lt_20 : C0 < 20 := by
  have h0 : (0:ℝ) < (2:ℝ) ^ (4.75:ℝ) := Real.rpow_pos_of_pos (by norm_num) _
  unfold C0
  rw [show (-4.75:ℝ) = -(4.75:ℝ) by norm_num,
    Real.rpow_neg (by norm_num : (0:ℝ) ≤ 2), ← div_eq_mul_inv, div_lt_iff₀ h0]
  nlinarith [twentytwo_lt_two_rpow]

/-- Dividing by C0 shifts the base-2 logarithm by 4.75 octaves up compared
    with dividing by 440. -/
theorem logb_div_C0 (f : ℝ) (hf : 0 < f) :
    Real.logb 2 (f / C0) = Real.logb 2 (f / 440) + 4.75 := by
  have h0 : (0:ℝ) < (2:ℝ) ^ (4.75:ℝ) := Real.rpow_pos_of_pos (by norm_num) _
  have h1 : f / C0 = (f / 440) * (2:ℝ) ^ (4.75:ℝ) := by
    unfold C0
    rw [show (-4.75:ℝ) = -(4.75:ℝ) by norm_num,
      Real.rpow_neg (by norm_num : (0:ℝ) ≤ 2)]
    field_simp
  rw [h1, Real.logb_mul (ne_of_gt (by positivity)) (ne_of_gt h0),
    Real.logb_rpow (by norm_num : (0:ℝ) < 2) (by norm_num : (2:ℝ) ≠ 1)]

/-- On the branch of frequencyToNote guarded by C0 < f, the rounded
    logarithm h is nonnegative, so the JS remainder and integer-division
    agree with Int.emod and the real floor used in the embedding. -/
theorem round_logb_C0_nonneg (f : ℝ) (hf : C0 < f) :
    0 ≤ round (12 * Real.logb 2 (f / C0)) := by
  have h1 : (1:ℝ) ≤ f / C0 := (one_le_div C0_pos).mpr hf.le
  have h2 : 0 ≤ Real.logb 2 (f / C0) := Real.logb_nonneg (by norm_num) h1
  rw [round_eq]
  refine Int.le_floor.mpr ?_
  push_cast
  linarith

/-- Real floor of an integer divided by 12 is integer (Euclidean) division. -/
theorem floor_intCast_div_twelve (m : ℤ) : ⌊(m:ℝ) / 12⌋ = m / 12 := by
  rw [Int.floor_eq_iff]
  constructor
  · rw [le_div_iff₀ (by norm_num : (0:ℝ) < 12)]
    have h : (m / 12) * 12 ≤ m := by omega
    exact_mod_cast h
  · rw [div_lt_iff₀ (by norm_num : (0:ℝ) < 12)]
    have h : m < (m / 12 + 1) * 12 := by omega
    exact_mod_cast h

/-- C5: for every frequency of at least 20 Hz, frequencyToMidi is
    round(12*log2(f/440) + 69), and frequencyToNote — although computed
    through C0 = 440 * 2 ^ (-4.75) — equals the name of pitch class
    midi mod 12 (class 0 being C) concatenated with octave
    floor(midi/12) - 1 for midi = frequencyToMidi f. -/
theorem c5_note_consistent_with_midi (f : ℝ) (hf : 20 ≤ f) :
    frequencyToMidi f = round (12 * Real.logb 2 (f / 440) + 69) ∧
    noteNames.getD 0 "" = "C" ∧
    frequencyToNote f =
      noteNames.getD ((frequencyToMidi f) % 12).toNat "" ++
        toString (frequencyToMidi f / 12 - 1) := by
  have hf0 : (0:ℝ) < f := by linarith
  have hg : ¬ (f = 0 ∨ f < 20) := by
    push_neg
    exact ⟨ne_of_gt hf0, hf⟩
  have hmidi : frequencyToMidi f = round (12 * Real.logb 2 (f / 440) + 69) := by
    unfold frequencyToMidi
    rw [if_neg hg]
  refine ⟨hmidi, rfl, ?_⟩
  set M : ℤ := round (12 * Real.logb 2 (f / 440) + 69) with hM
  have hC0f : C0 < f := lt_of_lt_of_le C0_lt_20 hf
  have harg : 12 * Real.logb 2 (f / C0) =
      (12 * Real.logb 2 (f / 440) + 69) + ((-12 : ℤ) : ℝ) := by
    rw [logb_div_C0 f hf0]
    push_cast
    ring
  have hh : round (12 * Real.logb 2 (f / C0)) = M - 12 := by
    rw [harg, round_add_int, ← hM]
    omega
  have hnote : frequencyToNote f =
      noteNames.getD ((round (12 * Real.logb 2 (f / C0))) % 12).toNat "" ++
        toString (⌊((round (12 * Real.logb 2 (f / C0)) : ℤ) : ℝ) / 12⌋) := by
    unfold frequencyToNote
    rw [if_neg hg, if_pos hC0f]
  have e1 : (M - 12) % 12 = M % 12 := by omega
  have e2 : (M - 12) / 12 = M / 12 - 1 := by omega
  rw [hnote, hh, floor_intCast_div_twelve, hmidi, e1, e2]

/-- C5 witness: the theorem applied at the concrete frequency 440 Hz. -/
theorem c5_note_consistent_with_midi_witness :
    (20:ℝ) ≤ 440 ∧
    (frequencyToMidi 440 = round (12 * Real.logb 2 ((440:ℝ) / 440) + 69) ∧
     noteNames.getD 0 "" = "C" ∧
     frequencyToNote 440 =
       noteNames.getD ((frequencyToMidi 440) % 12).toNat "" ++
         toString (frequencyToMidi 440 / 12 - 1)) :=
  ⟨by norm_num, c5_note_consistent_with_midi 440 (by norm_num)⟩

/-- C6: for every midi number between 21 and 108, converting to the
    equal-temperament frequency 440 * 2 ^ ((m - 69)/12) and back through
    frequencyToMidi returns exactly m. -/
theorem c6_midi_round_trip (m : ℤ) (h1 : 21 ≤ m) (h2 : m ≤ 108) :
    frequencyToMidi (440 * (2:ℝ) ^ (((m:ℝ) - 69) / 12)) = m := by
  set t : ℝ := ((m:ℝ) - 69) / 12 with ht
  have hm21 : (21:ℝ) ≤ (m:ℝ) := by exact_mod_cast h1
  have htlow : (-4:ℝ) ≤ t := by
    rw [ht]
    linarith
  have hrp : (2:ℝ) ^ (-4:ℝ) ≤ (2:ℝ) ^ t :=
    (Real.rpow_le_rpow_left_iff (by norm_num : (1:ℝ) < 2)).mpr htlow
  have h2n4 : (2:ℝ) ^ (-4:ℝ) = 1/16 := by
    rw [show (-4:ℝ) = -((4:ℕ):ℝ) by norm_num,
      Real.rpow_neg (by norm_num : (0:ℝ) ≤ 2), Real.rpow_natCast]
    norm_num
  have hf20 : (20:ℝ) ≤ 440 * (2:ℝ) ^ t := by
    rw [h2n4] at hrp
    linarith
  have hfpos : (0:ℝ) < 440 * (2:ℝ) ^ t := by positivity
  have hg : ¬ (440 * (2:ℝ) ^ t = 0 ∨ 440 * (2:ℝ) ^ t < 20) := by
    push_neg
    exact ⟨ne_of_gt hfpos, hf20⟩
  unfold frequencyToMidi
  rw [if_neg hg,
    mul_div_assoc 440 ((2:ℝ) ^ t) 440]
  rw [show (440:ℝ) * ((2:ℝ) ^ t / 440) = (2:ℝ) ^ t by ring]
  rw [Real.logb_rpow (by norm_num : (0:ℝ) < 2) (by norm_num : (2:ℝ) ≠ 1), ht]
  have h3 : 12 * (((m:ℝ) - 69) / 12) + 69 = (m:ℝ) := by ring
  rw [h3, round_intCast]

/-- C6 witness: the round trip at midi 69 (A4, 440 Hz). -/
theorem c6_midi_round_trip_witness :
    ((21:ℤ) ≤ 69 ∧ (69:ℤ) ≤ 108) ∧
    frequencyToMidi (440 * (2:ℝ) ^ ((((69:ℤ):ℝ) - 69) / 12)) = 69 :=
  ⟨⟨by norm_num, by norm_num⟩, c6_midi_round_trip 69 (by norm_num) (by norm_num)⟩

/-- C7 counterexample: on events with midi values 60, 60, 62, the rendered
    vertical range is the 12 keys from 62 down to 51: the top bound stays
    at the data maximum 62 although the expansion deficit is 10, so no part
    of the deficit is added above — the expansion is not split between top
    and bottom. -/
theorem c7_no_top_expansion_counterexample :
    pianoKeys [60, 60, 62] = [62, 61, 60, 59, 58, 57, 56, 55, 54, 53, 52, 51] ∧
    maxOf [60, 60, 62] = 62 ∧
    midiRangeOf [60, 60, 62] - (maxOf [60, 60, 62] - minOf [60, 60, 62]) = 10 ∧
    (∀ k ∈ pianoKeys [60, 60, 62], k ≤ 62) := by
  decide

/-- C7 amended: for every nonempty midi list the rendered vertical range
    has exactly max(extent, 12) keys — at least 12 semitones — anchored at
    the data maximum: the top key is the data max and all expansion extends
    downward; the key span covers at least the data extent. -/
theorem c7_auto_fit_extends_downward (x : ℤ) (xs : List ℤ) :
    (pianoKeys (x :: xs)).length = (midiRangeOf (x :: xs)).toNat ∧
    12 ≤ midiRangeOf (x :: xs) ∧
    (pianoKeys (x :: xs)).head? = some (maxOf (x :: xs)) ∧
    (∀ k ∈ pianoKeys (x :: xs),
      maxOf (x :: xs) - midiRangeOf (x :: xs) < k ∧ k ≤ maxOf (x :: xs)) ∧
    maxOf (x :: xs) - minOf (x :: xs) ≤ midiRangeOf (x :: xs) := by
  have h12 : 12 ≤ midiRangeOf (x :: xs) := le_max_right _ _
  have hcast : (((midiRangeOf (x :: xs)).toNat : ℤ)) = midiRangeOf (x :: xs) :=
    Int.toNat_of_nonneg (le_trans (by norm_num) h12)
  refine ⟨by rw [pianoKeys, List.length_map, List.length_range], h12, ?_, ?_,
    le_max_left _ _⟩
  · obtain ⟨m, hm⟩ : ∃ m, (midiRangeOf (x :: xs)).toNat = m + 1 :=
      ⟨(midiRangeOf (x :: xs)).toNat - 1, by omega⟩
    rw [pianoKeys, hm, List.range_succ_eq_map]
    simp
  · intro k hk
    simp only [pianoKeys, List.mem_map, List.mem_range] at hk
    obtain ⟨i, hi, rfl⟩ := hk
    have hi2 : (i : ℤ) < midiRangeOf (x :: xs) := by
      rw [← hcast]
      exact_mod_cast hi
    constructor
    · omega
    · omega

/-- C7 witness: the amended theorem applied to the event list 60, 60, 62. -/
theorem c7_auto_fit_extends_downward_witness :
    12 ≤ midiRangeOf [60, 60, 62] ∧
    (∀ k ∈ pianoKeys [60, 60, 62],
      maxOf [60, 60, 62] - midiRangeOf [60, 60, 62] < k ∧ k ≤ maxOf [60, 60, 62]) :=
  ⟨(c7_auto_fit_extends_downward 60 [60, 62]).2.1,
   (c7_auto_fit_extends_downward 60 [60, 62]).2.2.2.1⟩

/-- The nearest-point fold yields null exactly when the accumulator was
    null and no scanned event is within the 20 px limit. -/
theorem nearestAcc_eq_none_iff {α : Type} (d : α → ℝ) :
    ∀ (pts : List α) (acc : Option (α × ℝ)),
      nearestAcc d acc pts = none ↔ acc = none ∧ ∀ p ∈ pts, 20 ≤ d p := by
  intro pts
  induction pts with
  | nil =>
    intro acc
    simp [nearestAcc]
  | cons p ps ih =>
    intro acc
    simp only [nearestAcc]
    by_cases hc : (acc.elim True fun be => d p < be.2) ∧ d p < 20
    · rw [if_pos hc, ih (some (p, d p))]
      constructor
      · rintro ⟨h, -⟩
        cases h
      · rintro ⟨-, hall⟩
        exact absurd (hall p (List.mem_cons_self p ps)) (not_le.mpr hc.2)
    · rw [if_neg hc, ih acc]
      constructor
      · rintro ⟨ha, hall⟩
        refine ⟨ha, ?_⟩
        intro q hq
        rcases List.mem_cons.mp hq with rfl | hq2
        · subst ha
          exact not_lt.mp fun h => hc ⟨trivial, h⟩
        · exact hall q hq2
      · rintro ⟨ha, hall⟩
        exact ⟨ha, fun q hq => hall q (List.mem_cons_of_mem p hq)⟩

/-- The nearest-point fold preserves the invariant NInv while scanning. -/
theorem nearestAcc_inv {α : Type} (d : α → ℝ) :
    ∀ (pts : List α) (acc : Option (α × ℝ)) (visited : List α),
      NInv d visited acc → NInv d (visited ++ pts) (nearestAcc d acc pts) := by
  intro pts
  induction pts with
  | nil =>
    intro acc visited h
    simpa [nearestAcc] using h
  | cons p ps ih =>
    intro acc visited hinv
    have hstep : visited ++ p :: ps = (visited ++ [p]) ++ ps := by simp
    rw [hstep]
    simp only [nearestAcc]
    by_cases hc : (acc.elim True fun be => d p < be.2) ∧ d p < 20
    · rw [if_pos hc]
      apply ih
      refine ⟨rfl, hc.2, visited, [], by simp, ?_, by simp⟩
      intro q hq
      cases acc with
      | none =>
        have h20 : 20 ≤ d q := hinv q hq
        linarith [hc.2]
      | some em =>
        obtain ⟨e, m⟩ := em
        obtain ⟨hm, hlt20, l1, l2, hvis, hl1, hl2⟩ := hinv
        have hpm : d p < m := hc.1
        rw [hm] at hpm
        rw [hvis] at hq
        rcases List.mem_append.mp hq with hq1 | hq2
        · exact lt_trans hpm (hl1 q hq1)
        · rcases List.mem_cons.mp hq2 with rfl | hq3
          · exact hpm
          · exact lt_of_lt_of_le hpm (hl2 q hq3)
    · rw [if_neg hc]
      apply ih
      cases acc with
      | none =>
        intro q hq
        rcases List.mem_append.mp hq with hq1 | hq2
        · exact hinv q hq1
        · rcases List.mem_cons.mp hq2 with rfl | hq3
          · exact not_lt.mp fun h => hc ⟨trivial, h⟩
          · cases hq3
      | some em =>
        obtain ⟨e, m⟩ := em
        obtain ⟨hm, hlt20, l1, l2, hvis, hl1, hl2⟩ := hinv
        refine ⟨hm, hlt20, l1, l2 ++ [p], by rw [hvis]; simp, hl1, ?_⟩
        intro q hq
        rcases List.mem_append.mp hq with hq1 | hq2
        · exact hl2 q hq1
        · rcases List.mem_cons.mp hq2 with rfl | hq3
          · by_cases h1 : d q < 20
            · have h2 : ¬ d q < m := fun h => hc ⟨h, h1⟩
              rw [← hm]
              exact not_lt.mp h2
            · linarith [hlt20, not_lt.mp h1]
          · cases hq3

/-- Full specification of the nearest-point lookup over an arbitrary
    distance assignment: null exactly when every candidate is at least
    20 px away; otherwise the result is within 20 px, minimizes the
    distance over all candidates, and is the first event in iteration
    order among the minimizers. -/
theorem nearestData_spec {α : Type} (d : α → ℝ) (pts : List α) :
    (nearestData d pts = none ↔ ∀ p ∈ pts, 20 ≤ d p) ∧
    (∀ e, nearestData d pts = some e →
      d e < 20 ∧ (∀ p ∈ pts, d e ≤ d p) ∧
      ∃ l1 l2, pts = l1 ++ e :: l2 ∧ ∀ p ∈ l1, d e < d p) := by
  constructor
  · unfold nearestData
    rw [Option.map_eq_none', nearestAcc_eq_none_iff d pts none]
    simp
  · intro e he
    unfold nearestData at he
    obtain ⟨⟨e2, m⟩, hacc, hfst⟩ := Option.map_eq_some'.mp he
    cases hfst
    have hinv : NInv d ([] ++ pts) (nearestAcc d none pts) :=
      nearestAcc_inv d pts none [] (by intro p hp; cases hp)
    rw [hacc] at hinv
    obtain ⟨hm, hlt, l1, l2, hpts, hl1, hl2⟩ := hinv
    simp only [List.nil_append] at hpts
    refine ⟨hlt, ?_, l1, l2, hpts, hl1⟩
    intro p hp
    rw [hpts] at hp
    rcases List.mem_append.mp hp with h1 | h2
    · exact (hl1 p h1).le
    · rcases List.mem_cons.mp h2 with rfl | h3
      · exact le_refl _
      · exact hl2 p h3

/-- C9: the nearest-point lookup of handleMouseMove, over the currently
    filtered time range, returns null exactly when every filtered event
    projects at least 20 px away from the query point; otherwise it
    returns an event within 20 px that minimizes the Euclidean distance
    in the (time, pitch) to (x, y) projection over the whole filtered
    range, and on ties the first event in iteration order wins (every
    earlier event is strictly farther). -/
theorem c9_nearest_lookup (x y ts te sc mm kh : ℝ) (pd : List PitchData) :
    (findNearest x y ts te sc mm kh pd = none ↔
      ∀ p ∈ filterByTimeRange ts te pd, 20 ≤ mouseDist x y ts sc mm kh p) ∧
    (∀ e, findNearest x y ts te sc mm kh pd = some e →
      mouseDist x y ts sc mm kh e < 20 ∧
      (∀ p ∈ filterByTimeRange ts te pd,
        mouseDist x y ts sc mm kh e ≤ mouseDist x y ts sc mm kh p) ∧
      ∃ l1 l2, filterByTimeRange ts te pd = l1 ++ e :: l2 ∧
        ∀ p ∈ l1, mouseDist x y ts sc mm kh e < mouseDist x y ts sc mm kh p) := by
  unfold findNearest
  exact nearestData_spec (mouseDist x y ts sc mm kh) (filterByTimeRange ts te pd)

/-- C9 witness: with the query point on top of a single filtered event the
    lookup returns that event, and the theorem yields that its distance is
    below 20 px. -/
theorem c9_nearest_lookup_witness : mouseDist 0 0 0 1 0 0 (ev 0 440) < 20 := by
  have hd : mouseDist 0 0 0 1 0 0 (ev 0 440) = 0 := by
    unfold mouseDist
    have ht : (ev 0 440).time = 0 := rfl
    rw [ht]
    norm_num
  have hflt : filterByTimeRange 0 1 [ev 0 440] = [ev 0 440] := by
    unfold filterByTimeRange
    have ht : (ev 0 440).time = 0 := rfl
    simp [ht]
  have hsome : findNearest 0 0 0 1 1 0 0 [ev 0 440] = some (ev 0 440) := by
    unfold findNearest nearestData
    rw [hflt]
    simp only [nearestAcc]
    rw [if_pos ⟨trivial, by rw [hd]; norm_num⟩]
    rfl
  exact ((c9_nearest_lookup 0 0 0 1 1 0 0 [ev 0 440]).2 (ev 0 440) hsome).1

/-- C10: getPitchFromBuffer returns null whenever the underlying detector
    result is falsy (null, undefined, NaN or 0), and its result is always
    either null or a nonzero numeric frequency; it is never NaN and never
    the number 0. -/
theorem c10_wrapper_never_falsy_number {α : Type} (detectPitch : α → JSValue) (buffer : α) :
    (¬ (detectPitch buffer).truthy → getPitchFromBuffer detectPitch buffer = JSValue.null) ∧
    getPitchFromBuffer detectPitch buffer ≠ JSValue.num 0 ∧
    getPitchFromBuffer detectPitch buffer ≠ JSValue.nan ∧
    (getPitchFromBuffer detectPitch buffer = JSValue.null ∨
      ∃ f, f ≠ 0 ∧ getPitchFromBuffer detectPitch buffer = JSValue.num f) := by
  unfold getPitchFromBuffer jsOrNull
  by_cases h : (detectPitch buffer).truthy
  · rw [if_pos h]
    refine ⟨fun hc => absurd h hc, ?_, ?_, ?_⟩
    · intro he
      rw [he] at h
      exact h rfl
    · intro he
      rw [he] at h
      exact h
    · cases hv : detectPitch buffer with
      | num x =>
        rw [hv] at h
        exact Or.inr ⟨x, h, rfl⟩
      | null => rw [hv] at h; exact absurd h (by simp [JSValue.truthy])
      | undef => rw [hv] at h; exact absurd h (by simp [JSValue.truthy])
      | nan => rw [hv] at h; exact absurd h (by simp [JSValue.truthy])
  · rw [if_neg h]
    exact ⟨fun _ => rfl, by simp, by simp, Or.inl rfl⟩

/-- C10 witness: a detector returning NaN makes the wrapper return null. -/
theorem c10_wrapper_witness :
    getPitchFromBuffer (fun _ : Unit => JSValue.nan) () = JSValue.null :=
  (c10_wrapper_never_falsy_number (fun _ : Unit => JSValue.nan) ()).1
    (by simp [JSValue.truthy])
